import Mathlib

/-!
Verification of the label-set combiner of the ultrack-i2k2023 repository.

The repository's notebooks call `labels_to_edges` (and `track`) to merge a
sequence of integer segmentation-label volumes into a detection map and a
contour map.  The combiner itself lives in the external `ultrack` package,
so the definitions below are modelled from the design specification's
description of the combiner (its data model, algorithm and error
conditions), and the stated properties are proved about that model.
-/

namespace UltrackI2K

/-- Modelled from the spec: a Label Volume is an n-dimensional array of
non-negative integers of shape `(T, ...spatial dims...)`, `0` denoting
background.  The shape is a list of dimension sizes (first entry the time
axis) and `label` gives the raw label value at a multi-index. -/
structure Volume where
  shape : List Nat
  label : List Int → Nat

instance : Inhabited Volume := ⟨⟨[], fun _ => 0⟩⟩

/-- A multi-index is valid for a shape when it has one coordinate per
dimension and each coordinate is within bounds. -/
def validPos : List Nat → List Int → Bool
  | [], [] => true
  | n :: sh, i :: p => if 0 ≤ i ∧ i < (n : Int) then validPos sh p else false
  | _, _ => false

/-- The label value read at a multi-index: out-of-range reads give
background (`0`), so only valid positions carry information. -/
def Volume.lab (v : Volume) (p : List Int) : Nat :=
  if validPos v.shape p then v.label p else 0

/-- Modelled from the spec: the binary foreground mask of a volume,
`1` where the label value is `> 0`, else `0`. -/
def fgMask (v : Volume) (p : List Int) : ℚ :=
  if 0 < v.lab p then 1 else 0

/-- The multi-index obtained by shifting coordinate `a` by `d`. -/
def shiftPos (p : List Int) (a : Nat) (d : Int) : List Int :=
  p.set a (p.getD a 0 + d)

/-- Modelled from the spec: a voxel is on a boundary when its label value
differs from the label of at least one face-adjacent neighbor along a
spatial axis (axis `0` is the time axis and is excluded); comparisons are
only made against neighbors that exist inside the volume, and
background-to-background transitions never differ so they never count. -/
def isBoundary (v : Volume) (p : List Int) : Bool :=
  validPos v.shape p &&
    (List.range v.shape.length).any (fun a =>
      a != 0 &&
        ((validPos v.shape (shiftPos p a 1) && v.lab (shiftPos p a 1) != v.lab p) ||
         (validPos v.shape (shiftPos p a (-1)) && v.lab (shiftPos p a (-1)) != v.lab p)))

/-- Modelled from the spec: the binary boundary mask of a volume. -/
def bdMask (v : Volume) (p : List Int) : ℚ :=
  if isBoundary v p then 1 else 0

/-- Modelled from the spec: a discrete smoothing kernel.  The spec leaves
the exact discretisation of the Gaussian of scale `sigma` open, so the
kernel is kept abstract: a finite window of non-negative weights summing
to `1` (any truncated, normalised Gaussian is an instance). -/
structure Kernel where
  radius : Nat
  w : Nat → ℚ
  nonneg : ∀ j, 0 ≤ w j
  sum_one : ∑ j ∈ Finset.range (2 * radius + 1), w j = 1

/-- One-dimensional convolution of a mask with a kernel along axis `a`;
out-of-range reads of the underlying mask contribute `0`. -/
def smoothAxis (k : Kernel) (a : Nat) (f : List Int → ℚ) (p : List Int) : ℚ :=
  ∑ j ∈ Finset.range (2 * k.radius + 1),
    k.w j * f (shiftPos p a ((j : Int) - (k.radius : Int)))

/-- Separable smoothing: the kernel is applied independently along each of
the given axes in turn. -/
def smoothAxes (k : Kernel) (axes : List Nat) (f : List Int → ℚ) : List Int → ℚ :=
  match axes with
  | [] => f
  | a :: rest => smoothAxes k rest (fun p => smoothAxis k a f p)

/-- The spatial axes of a shape: every axis except axis `0` (time). -/
def spatialAxes (sh : List Nat) : List Nat :=
  (List.range sh.length).drop 1

/-- Modelled from the spec: the per-hypothesis contour response -- the
binary boundary mask, smoothed along the spatial axes when smoothing is
enabled (`sm = true`, i.e. `sigma > 0`). -/
def contourOf (k : Kernel) (sm : Bool) (v : Volume) : List Int → ℚ :=
  if sm then smoothAxes k (spatialAxes v.shape) (fun p => bdMask v p)
  else fun p => bdMask v p

/-- Modelled from the spec: the detection value at a position is the
elementwise maximum over hypotheses of their binary foreground masks. -/
def detAt (vols : List Volume) (p : List Int) : ℚ :=
  (vols.map (fun v => fgMask v p)).foldr max 0

/-- Modelled from the spec: the contour value at a position is the
arithmetic mean over hypotheses of their contour responses. -/
def contourAt (k : Kernel) (sm : Bool) (vols : List Volume) (p : List Int) : ℚ :=
  ((vols.map (fun v => contourOf k sm v p)).sum) / (vols.length : ℚ)

/-- A floating-point output map: a shape together with the value at each
multi-index. -/
structure QMap where
  shape : List Nat
  val : List Int → ℚ

/-- All volumes of the set share the shape of the first one. -/
def sameShape (vols : List Volume) : Bool :=
  vols.all (fun u => decide (u.shape = vols.headI.shape))

/-- The detection map of a hypothesis set. -/
def detMap (vols : List Volume) : QMap :=
  ⟨vols.headI.shape, fun p => detAt vols p⟩

/-- The contour map of a hypothesis set. -/
def contourMap (k : Kernel) (sm : Bool) (vols : List Volume) : QMap :=
  ⟨vols.headI.shape, fun p => contourAt k sm vols p⟩

/-- Modelled from the spec: the combiner's input-validation failures.
`emptyInput` covers calls violating the "one or more volumes" contract. -/
inductive CombineError
  | emptyInput
  | shapeMismatch
  | invalidSigma
deriving DecidableEq

/-- Modelled from the spec: the Label-Set Combiner
`combine(label_volumes, sigma) -> (DetectionMap, ContourMap)`
(the `labels_to_edges` step referenced by the notebooks, absent from this
repository).  It fails fast with an invalid-argument error when `sigma`
is negative and with a shape-mismatch error when the volumes do not share
one shape; otherwise it returns the max-aggregated detection map and the
mean-aggregated (optionally smoothed) contour map.  `kern` supplies, for
each positive `sigma`, the discretised Gaussian kernel of that scale;
`sigma = 0` disables smoothing. -/
def combine (kern : ℚ → Kernel) (sigma : ℚ) (vols : List Volume) :
    Except CombineError (QMap × QMap) :=
  if vols.isEmpty then .error .emptyInput
  else if sigma < 0 then .error .invalidSigma
  else if sameShape vols then
    .ok (detMap vols, contourMap (kern sigma) (decide (0 < sigma)) vols)
  else .error .shapeMismatch

/-- The trivial kernel (radius 0, unit weight): convolution with it is the
identity; it serves as a concrete kernel family instance. -/
def idKernel : Kernel where
  radius := 0
  w := fun _ => 1
  nonneg := fun _ => by norm_num
  sum_one := by simp

/-- A concrete kernel family assigning the trivial kernel to every scale. -/
def idFam : ℚ → Kernel := fun _ => idKernel

/-! ### Basic lemmas about the fold computing the elementwise maximum -/

lemma init_le_foldr_max (l : List ℚ) (a : ℚ) : a ≤ l.foldr max a := by
  induction l with
  | nil => exact le_refl a
  | cons x t ih => exact le_trans ih (le_max_right x _)

lemma mem_le_foldr_max (l : List ℚ) (a x : ℚ) (hx : x ∈ l) : x ≤ l.foldr max a := by
  induction l with
  | nil => cases hx
  | cons y t ih =>
    rcases List.mem_cons.mp hx with h | h
    · rw [h, List.foldr_cons]
      exact le_max_left y _
    · exact le_trans (ih h) (le_max_right y _)

lemma foldr_max_le (l : List ℚ) (a b : ℚ) (ha : a ≤ b) (h : ∀ x ∈ l, x ≤ b) :
    l.foldr max a ≤ b := by
  induction l with
  | nil => exact ha
  | cons x t ih =>
    exact max_le (h x (List.mem_cons_self x t))
      (ih fun y hy => h y (List.mem_cons_of_mem x hy))

lemma foldr_max_mono_init (l : List ℚ) (a b : ℚ) (h : a ≤ b) :
    l.foldr max a ≤ l.foldr max b := by
  induction l with
  | nil => exact h
  | cons x t ih => exact max_le_max (le_refl x) ih

lemma foldr_max_mem (l : List ℚ) (h0 : ∀ x ∈ l, 0 ≤ x) (hne : l ≠ []) :
    ∃ x ∈ l, l.foldr max 0 = x := by
  induction l with
  | nil => exact absurd rfl hne
  | cons x t ih =>
    cases t with
    | nil =>
      refine ⟨x, List.mem_cons_self x _, ?_⟩
      simpa using max_eq_left (h0 x (List.mem_cons_self x _))
    | cons y u =>
      obtain ⟨z, hz, hez⟩ := ih (fun w hw => h0 w (List.mem_cons_of_mem x hw)) (by simp)
      rcases le_total ((y :: u).foldr max 0) x with hle | hle
      · exact ⟨x, List.mem_cons_self x _, by simpa using max_eq_left hle⟩
      · refine ⟨z, List.mem_cons_of_mem x hz, ?_⟩
        rw [List.foldr_cons, max_eq_right hle]
        exact hez

lemma foldr_max_perm (l₁ l₂ : List ℚ) (h : l₁.Perm l₂) (a : ℚ) :
    l₁.foldr max a = l₂.foldr max a := by
  induction h with
  | nil => rfl
  | cons x _ ih => simp [List.foldr_cons, ih]
  | swap x y l => simp [List.foldr_cons, max_left_comm]
  | trans _ _ ih₁ ih₂ => exact ih₁.trans ih₂

lemma foldr_max_zero_one (l : List ℚ) (h : ∀ x ∈ l, x = 0 ∨ x = 1) :
    l.foldr max 0 = 0 ∨ l.foldr max 0 = 1 := by
  induction l with
  | nil => exact Or.inl rfl
  | cons x t ih =>
    have ht := ih fun y hy => h y (List.mem_cons_of_mem x hy)
    rw [List.foldr_cons]
    rcases h x (List.mem_cons_self x t) with hx | hx <;>
      rcases ht with hmax | hmax <;>
      rw [hx, hmax]
    · exact Or.inl (max_self 0)
    · exact Or.inr (max_eq_right (by norm_num))
    · exact Or.inr (max_eq_left (by norm_num))
    · exact Or.inr (max_self 1)

/-! ### The foreground and boundary masks take values in `{0, 1}` -/

lemma fgMask_zero_or_one (v : Volume) (p : List Int) :
    fgMask v p = 0 ∨ fgMask v p = 1 := by
  unfold fgMask; split <;> simp

lemma fgMask_nonneg (v : Volume) (p : List Int) : 0 ≤ fgMask v p := by
  rcases fgMask_zero_or_one v p with h | h <;> simp [h]

lemma bdMask_bounds (v : Volume) (p : List Int) :
    0 ≤ bdMask v p ∧ bdMask v p ≤ 1 := by
  unfold bdMask; split <;> norm_num

/-! ### Smoothing preserves the `[0, 1]` range and the zero mask -/

lemma smoothAxis_bounds (k : Kernel) (a : Nat) (f : List Int → ℚ)
    (hf : ∀ q, 0 ≤ f q ∧ f q ≤ 1) (p : List Int) :
    0 ≤ smoothAxis k a f p ∧ smoothAxis k a f p ≤ 1 := by
  constructor
  · exact Finset.sum_nonneg fun j _ => mul_nonneg (k.nonneg j) (hf _).1
  · calc smoothAxis k a f p
        ≤ ∑ j ∈ Finset.range (2 * k.radius + 1), k.w j := by
          refine Finset.sum_le_sum fun j _ => ?_
          simpa using mul_le_mul_of_nonneg_left (hf _).2 (k.nonneg j)
      _ = 1 := k.sum_one

lemma smoothAxes_bounds (k : Kernel) (axes : List Nat) (f : List Int → ℚ)
    (hf : ∀ q, 0 ≤ f q ∧ f q ≤ 1) (p : List Int) :
    0 ≤ smoothAxes k axes f p ∧ smoothAxes k axes f p ≤ 1 := by
  induction axes generalizing f with
  | nil => exact hf p
  | cons a rest ih =>
    exact ih (fun q => smoothAxis k a f q) (fun q => smoothAxis_bounds k a f hf q)

lemma smoothAxis_zero (k : Kernel) (a : Nat) (f : List Int → ℚ)
    (hf : ∀ q, f q = 0) (p : List Int) : smoothAxis k a f p = 0 := by
  unfold smoothAxis
  refine Finset.sum_eq_zero fun j _ => ?_
  rw [hf, mul_zero]

lemma smoothAxes_zero (k : Kernel) (axes : List Nat) (f : List Int → ℚ)
    (hf : ∀ q, f q = 0) (p : List Int) : smoothAxes k axes f p = 0 := by
  induction axes generalizing f with
  | nil => exact hf p
  | cons a rest ih =>
    exact ih (fun q => smoothAxis k a f q) (fun q => smoothAxis_zero k a f hf q)

lemma contourOf_bounds (k : Kernel) (sm : Bool) (v : Volume) (p : List Int) :
    0 ≤ contourOf k sm v p ∧ contourOf k sm v p ≤ 1 := by
  unfold contourOf
  cases sm with
  | false => simpa using bdMask_bounds v p
  | true =>
    simpa using smoothAxes_bounds k (spatialAxes v.shape) (fun q => bdMask v q)
      (fun q => bdMask_bounds v q) p

/-! ### Lemmas about the shape check and inversion of `combine` -/

lemma sameShape_mem (vols : List Volume) (h : sameShape vols = true)
    (u : Volume) (hu : u ∈ vols) : u.shape = vols.headI.shape := by
  unfold sameShape at h
  rw [List.all_eq_true] at h
  exact of_decide_eq_true (h u hu)

lemma sameShape_of_forall (vols : List Volume)
    (h : ∀ u ∈ vols, u.shape = vols.headI.shape) : sameShape vols = true := by
  unfold sameShape
  rw [List.all_eq_true]
  exact fun u hu => decide_eq_true (h u hu)

lemma sameShape_perm (vols₁ vols₂ : List Volume) (hp : vols₁.Perm vols₂)
    (h : sameShape vols₁ = true) : sameShape vols₂ = true := by
  cases vols₂ with
  | nil => rfl
  | cons u us =>
    refine sameShape_of_forall _ fun x hx => ?_
    have hxu : x.shape = vols₁.headI.shape :=
      sameShape_mem vols₁ h x (hp.mem_iff.mpr hx)
    have huu : u.shape = vols₁.headI.shape :=
      sameShape_mem vols₁ h u (hp.mem_iff.mpr (List.mem_cons_self u us))
    simp [hxu, huu]

lemma combine_ok_iff (kern : ℚ → Kernel) (sigma : ℚ) (vols : List Volume)
    (d c : QMap) :
    combine kern sigma vols = .ok (d, c) ↔
      vols ≠ [] ∧ ¬ sigma < 0 ∧ sameShape vols = true ∧
        d = detMap vols ∧ c = contourMap (kern sigma) (decide (0 < sigma)) vols := by
  unfold combine
  constructor
  · intro h
    by_cases hne : vols.isEmpty
    · simp [hne] at h
    · by_cases hs : sigma < 0
      · simp [hne, hs] at h
      · by_cases hsh : sameShape vols
        · refine ⟨by simpa [List.isEmpty_iff] using hne, hs, hsh, ?_, ?_⟩ <;>
            · simp [hne, hs, hsh] at h
              tauto
        · simp [hne, hs, hsh] at h
  · rintro ⟨hne, hs, hsh, hd, hc⟩
    have hne' : vols.isEmpty = false := by simpa [List.isEmpty_iff] using hne
    simp [hne', hs, hsh, hd, hc]

/-! ### All-background volumes have zero masks -/

lemma fgMask_of_zero (v : Volume) (hz : ∀ p, v.lab p = 0) (p : List Int) :
    fgMask v p = 0 := by
  unfold fgMask
  rw [hz p]
  simp

lemma isBoundary_of_zero (v : Volume) (hz : ∀ p, v.lab p = 0) (p : List Int) :
    isBoundary v p = false := by
  unfold isBoundary
  simp [hz]

lemma bdMask_of_zero (v : Volume) (hz : ∀ p, v.lab p = 0) (p : List Int) :
    bdMask v p = 0 := by
  unfold bdMask
  rw [isBoundary_of_zero v hz p]
  simp

lemma contourOf_of_zero (k : Kernel) (sm : Bool) (v : Volume)
    (hz : ∀ p, v.lab p = 0) (p : List Int) : contourOf k sm v p = 0 := by
  unfold contourOf
  cases sm with
  | false => simpa using bdMask_of_zero v hz p
  | true =>
    simpa using smoothAxes_zero k (spatialAxes v.shape) (fun q => bdMask v q)
      (fun q => bdMask_of_zero v hz q) p

lemma headI_mem (vols : List Volume) (hne : vols ≠ []) : vols.headI ∈ vols := by
  cases vols with
  | nil => exact absurd rfl hne
  | cons u us => exact List.mem_cons_self u us

/-! ### The claims -/

/-- C1: for every non-empty sequence of label volumes of identical shape and
every non-negative sigma, `combine` succeeds; both returned maps have exactly
the shape of the inputs; at every position the detection value is the
elementwise maximum over hypotheses of their binarized foreground masks
(an upper bound that is attained), and the contour value is the arithmetic
mean over hypotheses of their (optionally Gaussian-smoothed) binary boundary
responses. -/
theorem combine_max_mean_c1 (kern : ℚ → Kernel) (sigma : ℚ) (v : Volume)
    (vs : List Volume) (hs : 0 ≤ sigma) (hsh : sameShape (v :: vs) = true) :
    ∃ d c, combine kern sigma (v :: vs) = .ok (d, c) ∧
      (∀ u ∈ v :: vs, d.shape = u.shape ∧ c.shape = u.shape) ∧
      ∀ p, (∀ u ∈ v :: vs, fgMask u p ≤ d.val p) ∧
        (∃ u ∈ v :: vs, d.val p = fgMask u p) ∧
        (((v :: vs).length : ℚ)) * c.val p =
          ((v :: vs).map fun u => contourOf (kern sigma) (decide (0 < sigma)) u p).sum := by
  refine ⟨detMap (v :: vs), contourMap (kern sigma) (decide (0 < sigma)) (v :: vs),
    (combine_ok_iff kern sigma (v :: vs) _ _).mpr
      ⟨by simp, not_lt.mpr hs, hsh, rfl, rfl⟩, ?_, ?_⟩
  · intro u hu
    have := sameShape_mem (v :: vs) hsh u hu
    exact ⟨this.symm, this.symm⟩
  · intro p
    refine ⟨?_, ?_, ?_⟩
    · intro u hu
      exact mem_le_foldr_max _ 0 _ (List.mem_map_of_mem (fun w => fgMask w p) hu)
    · obtain ⟨x, hx, hex⟩ := foldr_max_mem ((v :: vs).map fun w => fgMask w p)
        (by
          intro x hx
          obtain ⟨u, _, rfl⟩ := List.mem_map.mp hx
          exact fgMask_nonneg u p)
        (by simp)
      obtain ⟨u, hu, rfl⟩ := List.mem_map.mp hx
      exact ⟨u, hu, hex⟩
    · have hlen : (((v :: vs).length : ℚ)) ≠ 0 := by
        have hpos : 0 < (v :: vs).length := by simp
        have : (0 : ℚ) < ((v :: vs).length : ℚ) := by exact_mod_cast hpos
        exact ne_of_gt this
      show (((v :: vs).length : ℚ)) * (contourAt (kern sigma) (decide (0 < sigma)) (v :: vs) p) = _
      unfold contourAt
      rw [mul_comm, div_mul_cancel₀ _ hlen]

/-- C2: the combiner fails fast with an invalid-argument error whenever
`sigma` is negative, and with a shape-mismatch error whenever the (otherwise
valid) input volumes do not all share one shape; the `Except.error` result
carries no maps, so no partial, truncated or broadcast output is produced. -/
theorem combine_errors_c2 (kern : ℚ → Kernel) (sigma : ℚ) (v : Volume)
    (vs : List Volume) :
    (sigma < 0 → combine kern sigma (v :: vs) = .error .invalidSigma) ∧
    (0 ≤ sigma → sameShape (v :: vs) = false →
      combine kern sigma (v :: vs) = .error .shapeMismatch) := by
  constructor
  · intro hneg
    unfold combine
    simp [hneg]
  · intro hs hsh
    unfold combine
    simp [not_lt.mpr hs, hsh]

/-- C3: for a single input label volume and any non-negative sigma, the
returned detection map is exactly the binarized foreground mask of that
volume and the returned contour map is exactly that volume's (possibly
Gaussian-smoothed) boundary mask. -/
theorem combine_single_c3 (kern : ℚ → Kernel) (sigma : ℚ) (v : Volume)
    (hs : 0 ≤ sigma) :
    ∃ d c, combine kern sigma [v] = .ok (d, c) ∧
      ∀ p, d.val p = fgMask v p ∧
        c.val p = contourOf (kern sigma) (decide (0 < sigma)) v p := by
  refine ⟨detMap [v], contourMap (kern sigma) (decide (0 < sigma)) [v],
    (combine_ok_iff kern sigma [v] _ _).mpr
      ⟨by simp, not_lt.mpr hs, by simp [sameShape], rfl, rfl⟩, ?_⟩
  intro p
  constructor
  · show detAt [v] p = fgMask v p
    unfold detAt
    simp only [List.map_cons, List.map_nil, List.foldr_cons, List.foldr_nil]
    exact max_eq_left (fgMask_nonneg v p)
  · show contourAt (kern sigma) (decide (0 < sigma)) [v] p = _
    unfold contourAt
    simp

/-- C4: whenever the combiner succeeds, every detection value is exactly `0`
or `1` (sigma never smooths the detection map) and every contour value lies
in the closed interval `[0, 1]`. -/
theorem combine_range_c4 (kern : ℚ → Kernel) (sigma : ℚ) (vols : List Volume)
    (d c : QMap) (h : combine kern sigma vols = .ok (d, c)) :
    ∀ p, (d.val p = 0 ∨ d.val p = 1) ∧ 0 ≤ c.val p ∧ c.val p ≤ 1 := by
  obtain ⟨hne, _, _, hd, hc⟩ := (combine_ok_iff kern sigma vols d c).mp h
  subst hd hc
  intro p
  have hlpos : 0 < (vols.length : ℚ) := by
    have : 0 < vols.length := List.length_pos.mpr hne
    exact_mod_cast this
  refine ⟨?_, ?_, ?_⟩
  · refine foldr_max_zero_one _ ?_
    intro x hx
    obtain ⟨u, _, rfl⟩ := List.mem_map.mp hx
    exact fgMask_zero_or_one u p
  · refine div_nonneg (List.sum_nonneg ?_) (le_of_lt hlpos)
    intro x hx
    obtain ⟨u, _, rfl⟩ := List.mem_map.mp hx
    exact (contourOf_bounds (kern sigma) (decide (0 < sigma)) u p).1
  · show contourAt (kern sigma) (decide (0 < sigma)) vols p ≤ 1
    unfold contourAt
    rw [div_le_one hlpos]
    calc ((vols.map fun u => contourOf (kern sigma) (decide (0 < sigma)) u p).sum)
        ≤ (vols.map fun u => contourOf (kern sigma) (decide (0 < sigma)) u p).length • (1 : ℚ) := by
          refine List.sum_le_card_nsmul _ 1 ?_
          intro x hx
          obtain ⟨u, _, rfl⟩ := List.mem_map.mp hx
          exact (contourOf_bounds (kern sigma) (decide (0 < sigma)) u p).2
      _ = (vols.length : ℚ) := by
          simp

/-- C5: the combiner is deterministic -- it is a pure function of the input
volume sequence and sigma, so two invocations with equal inputs return
identical results. -/
theorem combine_deterministic_c5 (kern : ℚ → Kernel) (s₁ s₂ : ℚ)
    (vols₁ vols₂ : List Volume) (hs : s₁ = s₂) (hv : vols₁ = vols₂) :
    combine kern s₁ vols₁ = combine kern s₂ vols₂ := by
  rw [hs, hv]

/-- C6: permuting the input hypothesis sequence changes neither the returned
detection map nor the returned contour map -- the permuted call succeeds and
its maps agree with the original ones in shape and at every position. -/
theorem combine_perm_c6 (kern : ℚ → Kernel) (sigma : ℚ)
    (vols₁ vols₂ : List Volume) (d c : QMap) (hp : vols₁.Perm vols₂)
    (h : combine kern sigma vols₁ = .ok (d, c)) :
    ∃ d₂ c₂, combine kern sigma vols₂ = .ok (d₂, c₂) ∧
      d₂.shape = d.shape ∧ c₂.shape = c.shape ∧
      ∀ p, d₂.val p = d.val p ∧ c₂.val p = c.val p := by
  obtain ⟨hne, hs, hsh, hd, hc⟩ := (combine_ok_iff kern sigma vols₁ d c).mp h
  subst hd hc
  have hne₂ : vols₂ ≠ [] := by
    intro hnil
    apply hne
    rw [← List.length_eq_zero] at hnil ⊢
    rw [hp.length_eq, hnil]
  have hsh₂ : sameShape vols₂ = true := sameShape_perm vols₁ vols₂ hp hsh
  have hhead : vols₂.headI.shape = vols₁.headI.shape :=
    sameShape_mem vols₁ hsh (vols₂.headI) (hp.mem_iff.mpr (headI_mem vols₂ hne₂))
  refine ⟨detMap vols₂, contourMap (kern sigma) (decide (0 < sigma)) vols₂,
    (combine_ok_iff kern sigma vols₂ _ _).mpr ⟨hne₂, hs, hsh₂, rfl, rfl⟩,
    hhead, hhead, ?_⟩
  intro p
  constructor
  · exact foldr_max_perm _ _ ((hp.map fun u => fgMask u p).symm) 0
  · show contourAt _ _ vols₂ p = contourAt _ _ vols₁ p
    unfold contourAt
    rw [(hp.map fun u => contourOf (kern sigma) (decide (0 < sigma)) u p).sum_eq,
      hp.length_eq]

/-- C7: appending an additional hypothesis volume to a set on which the
combiner succeeds can only increase or leave unchanged each position's
detection value. -/
theorem combine_monotone_c7 (kern : ℚ → Kernel) (sigma : ℚ)
    (vols : List Volume) (u : Volume) (d c d₂ c₂ : QMap)
    (h₁ : combine kern sigma vols = .ok (d, c))
    (h₂ : combine kern sigma (vols ++ [u]) = .ok (d₂, c₂)) :
    ∀ p, d.val p ≤ d₂.val p := by
  obtain ⟨_, _, _, hd, _⟩ := (combine_ok_iff kern sigma vols d c).mp h₁
  obtain ⟨_, _, _, hd₂, _⟩ := (combine_ok_iff kern sigma (vols ++ [u]) d₂ c₂).mp h₂
  subst hd hd₂
  intro p
  show detAt vols p ≤ detAt (vols ++ [u]) p
  unfold detAt
  rw [List.map_append, List.foldr_append]
  simp only [List.map_cons, List.map_nil, List.foldr_cons, List.foldr_nil]
  exact le_trans (foldr_max_mono_init _ 0 _ (le_max_right (fgMask u p) 0)) (le_refl _)

/-- C8: an all-background input set (every volume's label zero everywhere)
does not make the combiner fail; it returns a detection map and a contour
map that are both zero at every position. -/
theorem combine_background_c8 (kern : ℚ → Kernel) (sigma : ℚ) (v : Volume)
    (vs : List Volume) (hs : 0 ≤ sigma) (hsh : sameShape (v :: vs) = true)
    (hz : ∀ u ∈ v :: vs, ∀ p, u.lab p = 0) :
    ∃ d c, combine kern sigma (v :: vs) = .ok (d, c) ∧
      ∀ p, d.val p = 0 ∧ c.val p = 0 := by
  refine ⟨detMap (v :: vs), contourMap (kern sigma) (decide (0 < sigma)) (v :: vs),
    (combine_ok_iff kern sigma (v :: vs) _ _).mpr
      ⟨by simp, not_lt.mpr hs, hsh, rfl, rfl⟩, ?_⟩
  intro p
  constructor
  · show detAt (v :: vs) p = 0
    unfold detAt
    refine le_antisymm (foldr_max_le _ 0 0 (le_refl 0) ?_) (init_le_foldr_max _ 0)
    intro x hx
    obtain ⟨u, hu, rfl⟩ := List.mem_map.mp hx
    rw [fgMask_of_zero u (hz u hu)]
  · show contourAt (kern sigma) (decide (0 < sigma)) (v :: vs) p = 0
    unfold contourAt
    rw [List.sum_eq_zero, zero_div]
    intro x hx
    obtain ⟨u, hu, rfl⟩ := List.mem_map.mp hx
    exact contourOf_of_zero (kern sigma) (decide (0 < sigma)) u (hz u hu) p

/-! ### Concrete instances used by the witnesses -/

/-- A one-frame, two-pixel volume whose left pixel carries label `1`. -/
def exVol : Volume := ⟨[1, 2], fun p => if p.getD 1 0 = 0 then 1 else 0⟩

/-- A one-frame, two-pixel volume entirely labelled `2`. -/
def exVol2 : Volume := ⟨[1, 2], fun _ => 2⟩

/-- A `(5, 5)` volume. -/
def vol55 : Volume := ⟨[5, 5], fun _ => 1⟩

/-- A `(5, 6)` volume. -/
def vol56 : Volume := ⟨[5, 6], fun _ => 1⟩

/-- A one-frame, two-pixel volume that is entirely background. -/
def zeroVol : Volume := ⟨[1, 2], fun _ => 0⟩

lemma zeroVol_hz : ∀ u ∈ [zeroVol], ∀ p, u.lab p = 0 := by
  intro u hu p
  rw [List.mem_singleton] at hu
  subst hu
  unfold Volume.lab zeroVol
  split <;> rfl

theorem combine_max_mean_c1_witness :
    (0 : ℚ) ≤ 1 ∧ sameShape [exVol] = true ∧
      (∃ d c, combine idFam 1 [exVol] = .ok (d, c) ∧
        (∀ u ∈ [exVol], d.shape = u.shape ∧ c.shape = u.shape) ∧
        ∀ p, (∀ u ∈ [exVol], fgMask u p ≤ d.val p) ∧
          (∃ u ∈ [exVol], d.val p = fgMask u p) ∧
          ((([exVol] : List Volume).length : ℚ)) * c.val p =
            (([exVol] : List Volume).map
              fun u => contourOf (idFam 1) (decide ((0 : ℚ) < 1)) u p).sum) :=
  ⟨by norm_num, by decide,
    combine_max_mean_c1 idFam 1 exVol [] (by norm_num) (by decide)⟩

theorem combine_errors_c2_witness :
    ((-1 : ℚ) < 0 ∧ combine idFam (-1) [vol55] = .error .invalidSigma) ∧
    ((0 : ℚ) ≤ 1 ∧ sameShape [vol55, vol56] = false ∧
      combine idFam 1 [vol55, vol56] = .error .shapeMismatch) :=
  ⟨⟨by norm_num, (combine_errors_c2 idFam (-1) vol55 []).1 (by norm_num)⟩,
   ⟨by norm_num, by decide,
     (combine_errors_c2 idFam 1 vol55 [vol56]).2 (by norm_num) (by decide)⟩⟩

theorem combine_single_c3_witness :
    (0 : ℚ) ≤ 5 ∧
      (∃ d c, combine idFam 5 [exVol] = .ok (d, c) ∧
        ∀ p, d.val p = fgMask exVol p ∧
          c.val p = contourOf (idFam 5) (decide ((0 : ℚ) < 5)) exVol p) :=
  ⟨by norm_num, combine_single_c3 idFam 5 exVol (by norm_num)⟩

theorem combine_range_c4_witness :
    combine idFam 0 [exVol] =
      .ok (detMap [exVol], contourMap (idFam 0) (decide ((0 : ℚ) < 0)) [exVol]) ∧
    ∀ p, ((detMap [exVol]).val p = 0 ∨ (detMap [exVol]).val p = 1) ∧
      0 ≤ (contourMap (idFam 0) (decide ((0 : ℚ) < 0)) [exVol]).val p ∧
      (contourMap (idFam 0) (decide ((0 : ℚ) < 0)) [exVol]).val p ≤ 1 :=
  ⟨rfl, combine_range_c4 idFam 0 [exVol] (detMap [exVol])
    (contourMap (idFam 0) (decide ((0 : ℚ) < 0)) [exVol]) rfl⟩

theorem combine_deterministic_c5_witness :
    (5 : ℚ) = 5 ∧ ([exVol] : List Volume) = [exVol] ∧
      combine idFam 5 [exVol] = combine idFam 5 [exVol] :=
  ⟨rfl, rfl, combine_deterministic_c5 idFam 5 5 [exVol] [exVol] rfl rfl⟩

theorem combine_perm_c6_witness :
    List.Perm [exVol, exVol2] [exVol2, exVol] ∧
    combine idFam 0 [exVol, exVol2] =
      .ok (detMap [exVol, exVol2],
        contourMap (idFam 0) (decide ((0 : ℚ) < 0)) [exVol, exVol2]) ∧
    (∃ d₂ c₂, combine idFam 0 [exVol2, exVol] = .ok (d₂, c₂) ∧
      d₂.shape = (detMap [exVol, exVol2]).shape ∧
      c₂.shape = (contourMap (idFam 0) (decide ((0 : ℚ) < 0)) [exVol, exVol2]).shape ∧
      ∀ p, d₂.val p = (detMap [exVol, exVol2]).val p ∧
        c₂.val p = (contourMap (idFam 0) (decide ((0 : ℚ) < 0)) [exVol, exVol2]).val p) :=
  ⟨List.Perm.swap exVol2 exVol [], rfl,
    combine_perm_c6 idFam 0 [exVol, exVol2] [exVol2, exVol]
      (detMap [exVol, exVol2])
      (contourMap (idFam 0) (decide ((0 : ℚ) < 0)) [exVol, exVol2])
      (List.Perm.swap exVol2 exVol []) rfl⟩

theorem combine_monotone_c7_witness :
    combine idFam 0 [exVol] =
      .ok (detMap [exVol], contourMap (idFam 0) (decide ((0 : ℚ) < 0)) [exVol]) ∧
    combine idFam 0 ([exVol] ++ [exVol2]) =
      .ok (detMap ([exVol] ++ [exVol2]),
        contourMap (idFam 0) (decide ((0 : ℚ) < 0)) ([exVol] ++ [exVol2])) ∧
    ∀ p, (detMap [exVol]).val p ≤ (detMap ([exVol] ++ [exVol2])).val p :=
  ⟨rfl, rfl,
    combine_monotone_c7 idFam 0 [exVol] exVol2 (detMap [exVol])
      (contourMap (idFam 0) (decide ((0 : ℚ) < 0)) [exVol])
      (detMap ([exVol] ++ [exVol2]))
      (contourMap (idFam 0) (decide ((0 : ℚ) < 0)) ([exVol] ++ [exVol2])) rfl rfl⟩

theorem combine_background_c8_witness :
    (0 : ℚ) ≤ 5 ∧ sameShape [zeroVol] = true ∧
      (∀ u ∈ [zeroVol], ∀ p, u.lab p = 0) ∧
      (∃ d c, combine idFam 5 [zeroVol] = .ok (d, c) ∧
        ∀ p, d.val p = 0 ∧ c.val p = 0) :=
  ⟨by norm_num, by decide, zeroVol_hz,
    combine_background_c8 idFam 5 zeroVol [] (by norm_num) (by decide) zeroVol_hz⟩

end UltrackI2K
